import Mathlib

/-!
Shallow embedding of the sunny time-series store (crate sunny_db) and proofs
about it.

The embedding covers:
* timeseries.rs — the ordered in-memory series (TinyTimeSeries / TimeSeries):
  insertion, range extraction, append, serialization round-trip;
* statistics.rs — trapezoidal integration over a series;
* timeseries_db.rs — the segment store (SunnyDB): persisted-segment index
  resolution, range queries merging persisted segments with the live buffer,
  and the lossy shutdown flush.

Timestamps (Rust SystemTime / u64 epoch milliseconds) are modelled as Nat;
only their linear order and millisecond value are used by the source.  Rust
panics are modelled as Option.none (series append) or Except.error () (the
database layer and integrate), and filesystem contents as an explicit field of
the store state.
-/

namespace Sunny

/-- Rust Option ordering (None is smaller than Some x; Some x is compared to
Some y by the values), as a Boolean strict less-than on Option Nat. -/
def optLt : Option Nat → Option Nat → Bool
  | none, none => false
  | none, some _ => true
  | some _, none => false
  | some a, some b => decide (a < b)

/-- Strict greater-than on Option Nat with the Rust Option ordering; models
the comparisons on cached times in append and in the database range query. -/
def optGt (a b : Option Nat) : Bool := optLt b a

/-- Entry of the series: a timestamp together with the sample value.
From timeseries.rs, struct TimeSeriesEntry. -/
structure TimeSeriesEntry (α : Type) where
  system_time : Nat
  value : α
deriving DecidableEq, Repr

/-- The in-memory ordered series, from timeseries.rs (struct TinyTimeSeries;
the u64-timestamp variant used by timeseries_db.rs carries the same fields
and methods). -/
structure TinyTimeSeries (α : Type) where
  init_size : Nat
  data : List (TimeSeriesEntry α)
  start_time : Option Nat
  end_time : Option Nat
deriving DecidableEq, Repr

namespace TinyTimeSeries

variable {α : Type}

/-- TinyTimeSeries::new.  The initial capacity is recorded; the data vector
starts empty. -/
def new (init_size : Nat) : TinyTimeSeries α :=
  { init_size := init_size, data := [], start_time := none, end_time := none }

/-- TinyTimeSeries::empty. -/
def empty : TinyTimeSeries α := new 0

/-- TinyTimeSeries::len. -/
def len (s : TinyTimeSeries α) : Nat := s.data.length

/-- TinyTimeSeries::is_empty: start_time.is_none() || data.is_empty(). -/
def is_empty (s : TinyTimeSeries α) : Bool :=
  s.start_time.isNone || s.data.isEmpty

/-- TinyTimeSeries::get_start_time. -/
def get_start_time (s : TinyTimeSeries α) : Option Nat := s.start_time

/-- TinyTimeSeries::get_end_time. -/
def get_end_time (s : TinyTimeSeries α) : Option Nat := s.end_time

/-- TinyTimeSeries::get_current_values: the (timestamp, value) pairs in data
order. -/
def get_current_values (s : TinyTimeSeries α) : List (Nat × α) :=
  s.data.map (fun e => (e.system_time, e.value))

/-- TinyTimeSeries::get_current_values_without_time. -/
def get_current_values_without_time (s : TinyTimeSeries α) : List α :=
  s.data.map (fun e => e.value)

/-- TinyTimeSeries::update_start_and_end: lower start_time to time if it is
above it (or unset), raise end_time to time if it is below it (or unset). -/
def update_start_and_end (s : TinyTimeSeries α) (time : Nat) : TinyTimeSeries α :=
  let s1 :=
    match s.start_time with
    | none => { s with start_time := some time }
    | some start => if start > time then { s with start_time := some time } else s
  match s1.end_time with
  | none => { s1 with end_time := some time }
  | some e => if e < time then { s1 with end_time := some time } else s1

/-- Iterator::rposition over the data vector with predicate
(entry.system_time <= time): index of the last entry at or before time. -/
def rpositionLe : List (TimeSeriesEntry α) → Nat → Option Nat
  | [], _ => none
  | e :: rest, time =>
    match rpositionLe rest time with
    | some i => some (i + 1)
    | none => if e.system_time ≤ time then some 0 else none

/-- TinyTimeSeries::find_last_index_after_time: None when the series has no
cached bounds or time falls outside them, otherwise one past the last index
whose timestamp is at most time. -/
def find_last_index_after_time (s : TinyTimeSeries α) (time : Nat) : Option Nat := do
  let cs ← s.start_time
  let ce ← s.end_time
  if time < cs || time > ce then none
  else (rpositionLe s.data time).map (· + 1)

/-- TinyTimeSeries::insert_entry: insert at the index returned by
find_last_index_after_time, or push at the back when it returns None (which
happens both for a timestamp after the cached end and for one before the
cached start); then update the cached bounds. -/
def insert_entry (s : TinyTimeSeries α) (e : TimeSeriesEntry α) : TinyTimeSeries α :=
  let s' :=
    match s.find_last_index_after_time e.system_time with
    | some idx => { s with data := s.data.insertIdx idx e }
    | none => { s with data := s.data ++ [e] }
  s'.update_start_and_end e.system_time

/-- TinyTimeSeries::insert_value_at_time. -/
def insert_value_at_time (s : TinyTimeSeries α) (time : Nat) (value : α) :
    TinyTimeSeries α :=
  s.insert_entry { system_time := time, value := value }

/-- TinyTimeSeries::get_values_in_range.  The slice data[start_index..end_index]
is modelled by take/drop; in the source start_index <= end_index holds whenever
start_time <= end_time.  The start_time.unwrap() of the source can only panic
on a series whose data is non-empty while its cached start is unset, a state
the cache invariant WF rules out; that branch is mapped to none. -/
def get_values_in_range (s : TinyTimeSeries α) (start_time end_time : Nat) :
    Option (TinyTimeSeries α) :=
  if s.data.isEmpty then none
  else
    match s.start_time with
    | none => none
    | some cs =>
      if end_time < cs then none
      else
        let start_index := (s.find_last_index_after_time start_time).getD 0
        let end_index := (s.find_last_index_after_time end_time).getD s.data.length
        let data := (s.data.take end_index).drop start_index
        if data.isEmpty then none
        else
          some { init_size := data.length
                 data := data
                 start_time := data.head?.map (fun d => d.system_time)
                 end_time := data.getLast?.map (fun d => d.system_time) }

/-- TinyTimeSeries::append: no-op when the argument is empty; panics (none)
when self.start_time > t.start_time or self.end_time > t.end_time in the Rust
Option ordering; otherwise sets end_time to t's, adds the init_sizes and
concatenates the data.  t.end_time.unwrap() panicking (t non-empty with unset
end) is also mapped to none. -/
def append (s t : TinyTimeSeries α) : Option (TinyTimeSeries α) :=
  if t.is_empty then some s
  else if optGt s.start_time t.start_time then none
  else if optGt s.end_time t.end_time then none
  else
    match t.end_time with
    | none => none
    | some te =>
      some { init_size := s.init_size + t.init_size
             data := s.data ++ t.data
             start_time := s.start_time
             end_time := some te }

end TinyTimeSeries

/-- Encoding of an Option Nat field inside the structural encoding of a
series (a tagged value, as any lossless serializer represents it). -/
def encodeOptNat : Option Nat → List Nat
  | none => [0]
  | some n => [1, n]

/-- Decoder for encodeOptNat, returning the value and the remaining tokens. -/
def decodeOptNat : List Nat → Option (Option Nat × List Nat)
  | 0 :: rest => some (none, rest)
  | 1 :: n :: rest => some (some n, rest)
  | _ => none

/-- Encoding of the entry list: timestamp and encoded sample, per entry, in
order. -/
def encodeEntries (encA : α → Nat) : List (TimeSeriesEntry α) → List Nat
  | [] => []
  | e :: rest => e.system_time :: encA e.value :: encodeEntries encA rest

/-- Decoder for encodeEntries given the expected entry count; returns the
entries and the remaining tokens. -/
def decodeEntries (decA : Nat → Option α) :
    Nat → List Nat → Option (List (TimeSeriesEntry α) × List Nat)
  | 0, rest => some ([], rest)
  | n + 1, t :: v :: rest =>
    match decA v with
    | none => none
    | some a =>
      match decodeEntries decA n rest with
      | none => none
      | some (es, r) => some ({ system_time := t, value := a } :: es, r)
  | _ + 1, _ => none

/-- The role serde_json::to_string plays in to_compressed_json: a
deterministic, self-delimiting, lossless encoding of all four fields of the
series.  Sample values are encoded by encA (the sample type's Serialize
impl, exact for the fixed-shape numeric samples of the sample contract). -/
def serde_json_encode (encA : α → Nat) (s : TinyTimeSeries α) : List Nat :=
  s.init_size :: s.data.length ::
    (encodeEntries encA s.data ++ encodeOptNat s.start_time ++ encodeOptNat s.end_time)

/-- The role serde_json::from_str plays in from_compressed_json: parse the
four fields back; any malformed input is a decode error (none). -/
def serde_json_decode (decA : Nat → Option α) :
    List Nat → Option (TinyTimeSeries α)
  | isz :: n :: rest =>
    match decodeEntries decA n rest with
    | none => none
    | some (es, r1) =>
      match decodeOptNat r1 with
      | none => none
      | some (st, r2) =>
        match decodeOptNat r2 with
        | none => none
        | some (en, r3) =>
          if r3.isEmpty then
            some { init_size := isz, data := es, start_time := st, end_time := en }
          else none
  | _ => none

/-- TinyTimeSeries::to_compressed_json: serde_json encode, then
zstd::stream::encode_all at the given compression level.  The zstd encoder is
a parameter (it is an external crate); the property of it that the source
relies on — decode_all inverts encode_all at every level — enters the
round-trip theorem as an explicit hypothesis. -/
def to_compressed_json (zenc : Int → List Nat → List Nat) (encA : α → Nat)
    (s : TinyTimeSeries α) (level : Int) : List Nat :=
  zenc level (serde_json_encode encA s)

/-- TinyTimeSeries::from_compressed_json: zstd decode_all, then serde_json
parse; failures of either stage are errors (none). -/
def from_compressed_json (zdec : List Nat → Option (List Nat))
    (decA : Nat → Option α) (bytes : List Nat) : Option (TinyTimeSeries α) :=
  (zdec bytes).bind (serde_json_decode decA)

/-- u64 wrapping subtraction, the release-build semantics of t1 - t0 in
statistics.rs; on the time-ordered data of a well-formed series it equals
plain subtraction. -/
def u64_wrapping_sub (t1 t0 : Nat) : Nat :=
  (((t1 : Int) - (t0 : Int)) % ((2 : Int) ^ 64)).toNat

/-- One iteration of the for-loop of integrate: add
(f_(i+1) + f_i) * (t_(i+1) - t_i) to the accumulator.  Both indices are in
bounds at every iteration the source performs (1 <= i <= n-2); the fallback
arm is unreachable there. -/
def integrateStep (entries : List (Nat × ℚ)) (acc : ℚ) (i : Nat) : ℚ :=
  match entries.get? i, entries.get? (i + 1) with
  | some (ti, fi), some (tip, fip) =>
    acc + (fip + fi) * ((u64_wrapping_sub tip ti : Nat) : ℚ)
  | _, _ => acc

/-- integrate from statistics.rs (TrapezoidalIntegral for TimeSeries), at
sample type ℚ: the generic f64 arithmetic of the source instantiated with
exact rationals (every arithmetic operation performed on the inputs of the
claims is exact in f64 as well).  entries[0] and entries[1] are read before
the loop; on a one-entry series the second read is the out-of-bounds Rust
panic, modelled as Except.error (). -/
def integrate (s : TinyTimeSeries ℚ) : Except Unit (Option ℚ) :=
  if s.is_empty then Except.ok none
  else
    let n := s.len
    let entries := s.get_current_values
    match entries.get? 0, entries.get? 1 with
    | some (t0, f0), some (t1, f1) =>
      let s0 : ℚ := (f1 + f0) * ((u64_wrapping_sub t1 t0 : Nat) : ℚ)
      Except.ok (some (((List.range' 1 (n - 2)).foldl (integrateStep entries) s0) * (0.5 : ℚ)))
    | _, _ => Except.error ()

/-! The segment store, timeseries_db.rs.  The data directory is modelled as
the list of its parsed segment files in directory-listing order: the parsed
(start, end) filename pair of each segment together with the decoded series
stored in it. -/

/-- SunnyDB state.  data_path is omitted (only used to address the real
filesystem); segments models the files of the data directory. -/
structure SunnyDB (α : Type) where
  time_series : TinyTimeSeries α
  time_series_cache_size : Nat
  compression_level : Int
  data_loss_threshold : Nat
  segments : List ((Nat × Nat) × TinyTimeSeries α)
deriving Repr

namespace SunnyDB

variable {α : Type}

/-- SunnyDB::export_time_series_to_file: the written file is named from the
buffer's cached start and end (get_start_time / get_end_time, whose expect
panics — Except.error — when unset) and its body is the compressed encoding of
the buffer, modelled by the series value itself (cf. the round-trip theorem);
the io write is assumed to succeed. -/
def export_time_series_to_file (db : SunnyDB α) :
    Except Unit ((Nat × Nat) × TinyTimeSeries α) :=
  match db.time_series.get_start_time, db.time_series.get_end_time with
  | some s, some e => Except.ok ((s, e), db.time_series)
  | _, _ => Except.error ()

/-- SunnyDB::dump_time_series_if_full: when the buffer has reached the cache
size, export it (a failure is a panic) and replace it by a fresh empty one;
returns the new state and the written file, if any. -/
def dump_time_series_if_full (db : SunnyDB α) :
    Except Unit (SunnyDB α × Option ((Nat × Nat) × TinyTimeSeries α)) :=
  if db.time_series.len ≥ db.time_series_cache_size then
    (export_time_series_to_file db).map
      (fun f => ({ db with time_series := TinyTimeSeries.new db.time_series_cache_size }, some f))
  else Except.ok (db, none)

/-- SunnyDB::lossy_persist: export the buffer only when it holds strictly more
values than data_loss_threshold, otherwise deliberately write nothing; in
either case the buffer is left as it is.  The io Result of the export is
discarded (.ok()), but the expect inside it still panics on a buffer with no
cached times. -/
def lossy_persist (db : SunnyDB α) :
    Except Unit (SunnyDB α × Option ((Nat × Nat) × TinyTimeSeries α)) :=
  if db.data_loss_threshold < db.time_series.len then
    (export_time_series_to_file db).map (fun f => (db, some f))
  else Except.ok (db, none)

/-- Condition of one probe of the position scan in
find_persisted_segment_index: seg1.0 <= t and t <= seg2.1 for two consecutive
segments. -/
def segPairCond (t : Nat) (s1 s2 : Nat × Nat) : Bool :=
  decide (s1.1 ≤ t) && decide (t ≤ s2.2)

/-- segments.iter().zip(segments.iter().skip(1)).position(..): index of the
first consecutive pair satisfying segPairCond; none when no pair does (in
particular whenever fewer than two segments exist). -/
def posPair (t : Nat) : List (Nat × Nat) → Option Nat
  | s1 :: s2 :: rest =>
    if segPairCond t s1 s2 then some 0
    else (posPair t (s2 :: rest)).map (· + 1)
  | _ => none

/-- Shared shape of the two bound resolutions in find_persisted_segment_index:
the position scan, then a shift by one when the found segment ends before t
(a time falling strictly between two segments belongs to the later one). -/
def resolve_segment_index (segments : List (Nat × Nat)) (t : Nat) : Option Nat :=
  match posPair t segments with
  | none => none
  | some idx =>
    if (segments.getD idx (0, 0)).2 < t then some (idx + 1) else some idx

/-- SunnyDB::find_persisted_segment_index over the parsed (start, end)
filename pairs: (None, None) when there are no segments or the query ends
before the first segment starts; otherwise the lower bound is 0 when the query
starts before the first segment and the scanned index otherwise, and the upper
bound is the last index when the query ends after the last segment and the
scanned index otherwise. -/
def find_persisted_segment_index (segments : List (Nat × Nat))
    (start_time end_time : Nat) : Option Nat × Option Nat :=
  match segments with
  | [] => (none, none)
  | f :: rest =>
    if end_time < f.1 then (none, none)
    else
      let s_idx :=
        if start_time < f.1 then some 0
        else resolve_segment_index (f :: rest) start_time
      let lastSeg := (f :: rest).getLast (List.cons_ne_nil f rest)
      let e_idx :=
        if end_time > lastSeg.2 then some ((f :: rest).length - 1)
        else resolve_segment_index (f :: rest) end_time
      (s_idx, e_idx)

/-- SunnyDB::parse_segment_to_timeseries: open the file named from the pair
and decode it; in the model, look the pair up in the data directory.  A
missing or undecodable file is an error (none), which the caller skips. -/
def parse_segment_to_timeseries (db : SunnyDB α) (seg : Nat × Nat) :
    Option (TinyTimeSeries α) :=
  db.segments.lookup seg

/-- Left fold of TinyTimeSeries::append over a list, propagating its panic;
models the for-loop over the middle segments in read_persisted_data. -/
def append_fold (init : TinyTimeSeries α) :
    List (TinyTimeSeries α) → Except Unit (TinyTimeSeries α)
  | [] => Except.ok init
  | t :: rest =>
    match init.append t with
    | none => Except.error ()
    | some r => append_fold r rest

/-- SunnyDB::read_persisted_data.  The directory listing (sorted by path) and
filename parsing are modelled by db.segments; decode failures are dropped by
the flatten, as in the source.  On (None, None) from the index resolution the
result is no data; otherwise the selected index range of segments is decoded,
the first and last ones are restricted to the query range (an empty
restriction counting as an empty series), the middle ones are taken whole, and
everything is concatenated by append, whose panic propagates. -/
def read_persisted_data (db : SunnyDB α) (start_time end_time : Nat) :
    Except Unit (Option (TinyTimeSeries α)) :=
  let segments := db.segments.map Prod.fst
  let p := find_persisted_segment_index segments start_time end_time
  if p.1.isNone && p.2.isNone then Except.ok none
  else
    let actual_start_index := p.1.getD 0
    let actual_end_index := p.2.getD (db.segments.length - 1) + 1
    let ts := ((segments.take actual_end_index).drop actual_start_index).filterMap
      (fun seg => parse_segment_to_timeseries db seg)
    match ts with
    | [] => Except.ok none
    | [t] => Except.ok (t.get_values_in_range start_time end_time)
    | t :: r :: rest =>
      let t0 := (t.get_values_in_range start_time end_time).getD TinyTimeSeries.empty
      match append_fold t0 (r :: rest).dropLast with
      | Except.error e => Except.error e
      | Except.ok t0' =>
        let tn := (((r :: rest).getLast (List.cons_ne_nil r rest)).get_values_in_range
          start_time end_time).getD TinyTimeSeries.empty
        match t0'.append tn with
        | none => Except.error ()
        | some x => Except.ok (some x)

/-- The shortcut condition of SunnyDB::get_values_in_range: the buffer has a
cached start and it does not exceed the query's start. -/
def bufferShortcut (db : SunnyDB α) (start_time : Nat) : Prop :=
  db.time_series.get_start_time.isSome = true ∧
    db.time_series.get_start_time.getD 0 ≤ start_time

instance (db : SunnyDB α) (t : Nat) : Decidable (bufferShortcut db t) := by
  unfold bufferShortcut; infer_instance

/-- Body of SunnyDB::get_values_in_range once the bounds are ordered: the
buffer shortcut, else persisted data, returned alone when the buffer starts
after the query's end, else concatenated (append panic propagating) with the
buffer's own restriction, a missing one counting as an empty series. -/
def get_values_in_range_body (db : SunnyDB α) (start_time end_time : Nat) :
    Except Unit (Option (TinyTimeSeries α)) :=
  if bufferShortcut db start_time then
    Except.ok (db.time_series.get_values_in_range start_time end_time)
  else
    match read_persisted_data db start_time end_time with
    | Except.error e => Except.error e
    | Except.ok read_data =>
      if optGt db.time_series.get_start_time (some end_time) then Except.ok read_data
      else
        let ts := (db.time_series.get_values_in_range start_time end_time).getD
          TinyTimeSeries.empty
        match read_data with
        | none => Except.ok (some ts)
        | some d =>
          match d.append ts with
          | none => Except.error ()
          | some r => Except.ok (some r)

/-- SunnyDB::get_values_in_range: swapped bounds are normalized by the single
recursive call of the source, then the body runs. -/
def get_values_in_range (db : SunnyDB α) (start_time end_time : Nat) :
    Except Unit (Option (TinyTimeSeries α)) :=
  if end_time < start_time then get_values_in_range_body db end_time start_time
  else get_values_in_range_body db start_time end_time

end SunnyDB

/-! Specification-side definitions: the timestamps of a series, the cache
invariant, and orderedness. -/

/-- The timestamps of the entries, in data order. -/
def times {α : Type} (s : TinyTimeSeries α) : List Nat :=
  s.data.map (fun e => e.system_time)

/-- Fold step for the minimum of a list of timestamps. -/
def pushMin (t : Nat) : Option Nat → Option Nat
  | none => some t
  | some m => some (min t m)

/-- Fold step for the maximum of a list of timestamps. -/
def pushMax (t : Nat) : Option Nat → Option Nat
  | none => some t
  | some m => some (max t m)

/-- Minimum timestamp present in a list, none when it is empty. -/
def minTime (l : List Nat) : Option Nat := l.foldr pushMin none

/-- Maximum timestamp present in a list, none when it is empty. -/
def maxTime (l : List Nat) : Option Nat := l.foldr pushMax none

/-- The cache invariant of the series: cached start and end are exactly the
minimum and maximum timestamp present (hence both none exactly when the entry
list is empty). -/
def WF {α : Type} (s : TinyTimeSeries α) : Prop :=
  s.start_time = minTime (times s) ∧ s.end_time = maxTime (times s)

instance {α : Type} (s : TinyTimeSeries α) : Decidable (WF s) := by
  unfold WF; infer_instance

/-- The series is non-decreasing by timestamp. -/
def SortedByTime {α : Type} (s : TinyTimeSeries α) : Prop :=
  List.Pairwise (· ≤ ·) (times s)

instance {α : Type} (s : TinyTimeSeries α) : Decidable (SortedByTime s) := by
  unfold SortedByTime; infer_instance

/-- The entry list of an optional series, the empty list for none; the shape
in which both branches of a range query are compared to a filter of the
input. -/
def optData {α : Type} (o : Option (TinyTimeSeries α)) : List (TimeSeriesEntry α) :=
  (o.map (fun s => s.data)).getD []

/-- Parsed start of the segment at an index. -/
def segA (ss : List (Nat × Nat)) (i : Nat) : Nat := (ss.getD i (0, 0)).1

/-- Parsed end of the segment at an index. -/
def segB (ss : List (Nat × Nat)) (i : Nat) : Nat := (ss.getD i (0, 0)).2

/-- The on-disk segment layout the store maintains: each segment's parsed
start is at most its end, and consecutive segments are disjoint and in
chronological order. -/
def SegsOrdered (ss : List (Nat × Nat)) : Prop :=
  List.Chain' (fun a b => a.2 < b.1) ss ∧ ∀ s ∈ ss, s.1 ≤ s.2

/-! Helper lemmas about the spec-side minimum and maximum of timestamp
lists. -/

theorem pushMin_pushMin (x m : Nat) (o : Option Nat) :
    pushMin x (pushMin m o) = pushMin (min x m) o := by
  cases o <;> simp [pushMin, Nat.min_assoc]

theorem pushMax_pushMax (x m : Nat) (o : Option Nat) :
    pushMax x (pushMax m o) = pushMax (max x m) o := by
  cases o <;> simp [pushMax, Nat.max_assoc]

theorem minTime_cons (t : Nat) (l : List Nat) :
    minTime (t :: l) = pushMin t (minTime l) := rfl

theorem maxTime_cons (t : Nat) (l : List Nat) :
    maxTime (t :: l) = pushMax t (maxTime l) := rfl

theorem minTime_eq_none_iff (l : List Nat) : minTime l = none ↔ l = [] := by
  cases l with
  | nil => simp [minTime]
  | cons t l =>
    simp only [minTime_cons]
    cases h : minTime l <;> simp [pushMin]

theorem maxTime_eq_none_iff (l : List Nat) : maxTime l = none ↔ l = [] := by
  cases l with
  | nil => simp [maxTime]
  | cons t l =>
    simp only [maxTime_cons]
    cases h : maxTime l <;> simp [pushMax]

theorem minTime_perm {l l' : List Nat} (h : List.Perm l l') :
    minTime l = minTime l' := by
  induction h with
  | nil => rfl
  | cons x _ ih => simp [minTime_cons, ih]
  | swap x y l =>
    simp only [minTime_cons, pushMin_pushMin]
    rw [Nat.min_comm]
  | trans _ _ ih1 ih2 => exact ih1.trans ih2

theorem maxTime_perm {l l' : List Nat} (h : List.Perm l l') :
    maxTime l = maxTime l' := by
  induction h with
  | nil => rfl
  | cons x _ ih => simp [maxTime_cons, ih]
  | swap x y l =>
    simp only [maxTime_cons, pushMax_pushMax]
    rw [Nat.max_comm]
  | trans _ _ ih1 ih2 => exact ih1.trans ih2

theorem minTime_mem {l : List Nat} {m : Nat} (h : minTime l = some m) : m ∈ l := by
  induction l generalizing m with
  | nil => simp [minTime] at h
  | cons t l ih =>
    rw [minTime_cons] at h
    cases hm : minTime l with
    | none => rw [hm] at h; simp [pushMin] at h; simp [h]
    | some m' =>
      rw [hm] at h; simp only [pushMin, Option.some.injEq] at h
      rcases Nat.le_total t m' with hle | hle
      · exact List.mem_cons.mpr (Or.inl (by omega))
      · rw [Nat.min_eq_right hle] at h; subst h
        exact List.mem_cons.mpr (Or.inr (ih hm))

theorem maxTime_mem {l : List Nat} {m : Nat} (h : maxTime l = some m) : m ∈ l := by
  induction l generalizing m with
  | nil => simp [maxTime] at h
  | cons t l ih =>
    rw [maxTime_cons] at h
    cases hm : maxTime l with
    | none => rw [hm] at h; simp [pushMax] at h; simp [h]
    | some m' =>
      rw [hm] at h; simp only [pushMax, Option.some.injEq] at h
      rcases Nat.le_total m' t with hle | hle
      · exact List.mem_cons.mpr (Or.inl (by omega))
      · rw [Nat.max_eq_right hle] at h; subst h
        exact List.mem_cons.mpr (Or.inr (ih hm))

theorem minTime_le {l : List Nat} {m : Nat} (h : minTime l = some m) :
    ∀ x ∈ l, m ≤ x := by
  induction l generalizing m with
  | nil => simp
  | cons t l ih =>
    rw [minTime_cons] at h
    intro x hx
    rcases List.mem_cons.mp hx with hx | hx
    · subst hx
      cases hm : minTime l with
      | none => rw [hm] at h; simp [pushMin] at h; omega
      | some m' =>
        rw [hm] at h; simp only [pushMin, Option.some.injEq] at h; omega
    · cases hm : minTime l with
      | none => rw [minTime_eq_none_iff] at hm; subst hm; simp at hx
      | some m' =>
        rw [hm] at h; simp only [pushMin, Option.some.injEq] at h
        have := ih hm x hx; omega

theorem maxTime_ge {l : List Nat} {m : Nat} (h : maxTime l = some m) :
    ∀ x ∈ l, x ≤ m := by
  induction l generalizing m with
  | nil => simp
  | cons t l ih =>
    rw [maxTime_cons] at h
    intro x hx
    rcases List.mem_cons.mp hx with hx | hx
    · subst hx
      cases hm : maxTime l with
      | none => rw [hm] at h; simp [pushMax] at h; omega
      | some m' =>
        rw [hm] at h; simp only [pushMax, Option.some.injEq] at h; omega
    · cases hm : maxTime l with
      | none => rw [maxTime_eq_none_iff] at hm; subst hm; simp at hx
      | some m' =>
        rw [hm] at h; simp only [pushMax, Option.some.injEq] at h
        have := ih hm x hx; omega

theorem minTime_append (a b : List Nat) :
    minTime (a ++ b) =
      match minTime a with
      | none => minTime b
      | some m => pushMin m (minTime b) := by
  induction a with
  | nil => simp [minTime]
  | cons x a ih =>
    simp only [List.cons_append, minTime_cons, ih]
    cases ha : minTime a with
    | none => rfl
    | some m => simp only [pushMin_pushMin]; rfl

theorem maxTime_append (a b : List Nat) :
    maxTime (a ++ b) =
      match maxTime a with
      | none => maxTime b
      | some m => pushMax m (maxTime b) := by
  induction a with
  | nil => simp [maxTime]
  | cons x a ih =>
    simp only [List.cons_append, maxTime_cons, ih]
    cases ha : maxTime a with
    | none => rfl
    | some m => simp only [pushMax_pushMax]; rfl

/-! Helper lemmas about insertion and the cached bounds. -/

theorem sortedByTime_iff_pairwise {α : Type} (s : TinyTimeSeries α) :
    SortedByTime s ↔
      List.Pairwise (fun a b : TimeSeriesEntry α => a.system_time ≤ b.system_time)
        s.data := by
  unfold SortedByTime times
  exact List.pairwise_map

theorem update_start_and_end_data {α : Type} (s : TinyTimeSeries α) (t : Nat) :
    (s.update_start_and_end t).data = s.data := by
  obtain ⟨i, d, st, en⟩ := s
  cases st <;> cases en <;>
    simp only [TinyTimeSeries.update_start_and_end] <;> (try split_ifs) <;>
    (try dsimp only) <;> (try split_ifs) <;> rfl

theorem update_start_and_end_init {α : Type} (s : TinyTimeSeries α) (t : Nat) :
    (s.update_start_and_end t).init_size = s.init_size := by
  obtain ⟨i, d, st, en⟩ := s
  cases st <;> cases en <;>
    simp only [TinyTimeSeries.update_start_and_end] <;> (try split_ifs) <;>
    (try dsimp only) <;> (try split_ifs) <;> rfl

theorem update_start_and_end_start {α : Type} (s : TinyTimeSeries α) (t : Nat) :
    (s.update_start_and_end t).start_time = pushMin t s.start_time := by
  obtain ⟨i, d, st, en⟩ := s
  cases st <;> cases en <;>
    simp only [TinyTimeSeries.update_start_and_end] <;> (try split_ifs) <;>
    (try dsimp only) <;> (try split_ifs) <;>
    first
    | rfl
    | (simp [pushMin]; done)
    | (simp [pushMin]; omega)
    | omega

theorem update_start_and_end_end {α : Type} (s : TinyTimeSeries α) (t : Nat) :
    (s.update_start_and_end t).end_time = pushMax t s.end_time := by
  obtain ⟨i, d, st, en⟩ := s
  cases st <;> cases en <;>
    simp only [TinyTimeSeries.update_start_and_end] <;> (try split_ifs) <;>
    (try dsimp only) <;> (try split_ifs) <;>
    first
    | rfl
    | (simp [pushMax]; done)
    | (simp [pushMax]; omega)
    | omega

theorem rpositionLe_lt_length {α : Type} {l : List (TimeSeriesEntry α)} {t i : Nat}
    (h : TinyTimeSeries.rpositionLe l t = some i) : i < l.length := by
  induction l generalizing i with
  | nil => simp [TinyTimeSeries.rpositionLe] at h
  | cons e l ih =>
    unfold TinyTimeSeries.rpositionLe at h
    cases hr : TinyTimeSeries.rpositionLe l t with
    | some j =>
      rw [hr] at h
      simp only [Option.some.injEq] at h
      have := ih hr
      simp; omega
    | none =>
      rw [hr] at h
      dsimp at h
      split at h
      · simp only [Option.some.injEq] at h; simp; omega
      · exact absurd h (by simp)

theorem insert_entry_data_perm {α : Type} (s : TinyTimeSeries α)
    (e : TimeSeriesEntry α) :
    List.Perm (s.insert_entry e).data (e :: s.data) := by
  unfold TinyTimeSeries.insert_entry
  cases hf : s.find_last_index_after_time e.system_time with
  | none =>
    dsimp
    rw [update_start_and_end_data]
    exact List.perm_append_singleton e s.data
  | some idx =>
    dsimp
    rw [update_start_and_end_data]
    dsimp
    refine List.perm_insertIdx e s.data ?_
    unfold TinyTimeSeries.find_last_index_after_time at hf
    cases hst : s.start_time with
    | none => rw [hst] at hf; simp at hf
    | some cs =>
      cases hen : s.end_time with
      | none => rw [hst, hen] at hf; simp at hf
      | some ce =>
        rw [hst, hen] at hf
        simp only [Option.bind_eq_bind, Option.some_bind] at hf
        split at hf
        · simp at hf
        · simp only [Option.map_eq_some'] at hf
          obtain ⟨j, hj, hij⟩ := hf
          have := rpositionLe_lt_length hj
          omega

theorem insert_entry_start {α : Type} (s : TinyTimeSeries α) (e : TimeSeriesEntry α) :
    (s.insert_entry e).start_time = pushMin e.system_time s.start_time := by
  unfold TinyTimeSeries.insert_entry
  cases hf : s.find_last_index_after_time e.system_time <;>
    simp [update_start_and_end_start]

theorem insert_entry_end {α : Type} (s : TinyTimeSeries α) (e : TimeSeriesEntry α) :
    (s.insert_entry e).end_time = pushMax e.system_time s.end_time := by
  unfold TinyTimeSeries.insert_entry
  cases hf : s.find_last_index_after_time e.system_time <;>
    simp [update_start_and_end_end]

theorem countP_time_eq_zero {α : Type} {l : List (TimeSeriesEntry α)}
    {e : TimeSeriesEntry α} {t : Nat}
    (hhead : ∀ x ∈ l, e.system_time ≤ x.system_time) (he : ¬e.system_time ≤ t) :
    l.countP (fun x => decide (x.system_time ≤ t)) = 0 := by
  rw [List.countP_eq_zero]
  intro x hx
  have := hhead x hx
  simp; omega

theorem rpositionLe_sorted {α : Type} {l : List (TimeSeriesEntry α)} (t : Nat)
    (hs : List.Pairwise (fun a b : TimeSeriesEntry α =>
      a.system_time ≤ b.system_time) l) :
    TinyTimeSeries.rpositionLe l t =
      match l.countP (fun e => decide (e.system_time ≤ t)) with
      | 0 => none
      | n + 1 => some n := by
  induction l with
  | nil => rfl
  | cons e l ih =>
    rw [List.pairwise_cons] at hs
    obtain ⟨hhead, htail⟩ := hs
    unfold TinyTimeSeries.rpositionLe
    rw [ih htail]
    by_cases he : e.system_time ≤ t
    · rw [List.countP_cons_of_pos _ _ (by simpa using he)]
      cases hc : l.countP (fun x => decide (x.system_time ≤ t)) with
      | zero => simp [he]
      | succ n => simp
    · have hc : l.countP (fun x => decide (x.system_time ≤ t)) = 0 :=
        countP_time_eq_zero hhead he
      rw [List.countP_cons_of_neg _ _ (by simpa using he), hc]
      simp [he]

theorem sorted_take_countP {α : Type} {l : List (TimeSeriesEntry α)} (t : Nat)
    (hs : List.Pairwise (fun a b : TimeSeriesEntry α =>
      a.system_time ≤ b.system_time) l) :
    l.take (l.countP (fun e => decide (e.system_time ≤ t))) =
      l.filter (fun e => decide (e.system_time ≤ t)) := by
  induction l with
  | nil => rfl
  | cons e l ih =>
    rw [List.pairwise_cons] at hs
    obtain ⟨hhead, htail⟩ := hs
    by_cases he : e.system_time ≤ t
    · rw [List.countP_cons_of_pos _ _ (by simpa using he)]
      rw [List.filter_cons_of_pos (by simpa using he)]
      rw [List.take_succ_cons, ih htail]
    · have hc : l.countP (fun x => decide (x.system_time ≤ t)) = 0 :=
        countP_time_eq_zero hhead he
      rw [List.countP_cons_of_neg _ _ (by simpa using he), hc]
      rw [List.filter_cons_of_neg (by simpa using he)]
      rw [List.filter_eq_nil_iff.mpr ?_]
      · rfl
      · intro x hx
        have := hhead x hx
        simp; omega

theorem sorted_drop_countP {α : Type} {l : List (TimeSeriesEntry α)} (t : Nat)
    (hs : List.Pairwise (fun a b : TimeSeriesEntry α =>
      a.system_time ≤ b.system_time) l) :
    l.drop (l.countP (fun e => decide (e.system_time ≤ t))) =
      l.filter (fun e => decide (t < e.system_time)) := by
  induction l with
  | nil => rfl
  | cons e l ih =>
    rw [List.pairwise_cons] at hs
    obtain ⟨hhead, htail⟩ := hs
    by_cases he : e.system_time ≤ t
    · rw [List.countP_cons_of_pos _ _ (by simpa using he)]
      rw [List.drop_succ_cons, ih htail]
      rw [List.filter_cons_of_neg (by simp; omega)]
    · have hc : l.countP (fun x => decide (x.system_time ≤ t)) = 0 :=
        countP_time_eq_zero hhead he
      rw [List.countP_cons_of_neg _ _ (by simpa using he), hc]
      rw [List.drop_zero]
      rw [List.filter_cons_of_pos (by simp; omega)]
      rw [List.filter_eq_self.mpr ?_]
      intro x hx
      have := hhead x hx
      simp; omega

theorem insertIdx_eq_take_append {β : Type} (l : List β) (n : Nat) (a : β)
    (h : n ≤ l.length) :
    l.insertIdx n a = l.take n ++ a :: l.drop n := by
  induction l generalizing n with
  | nil =>
    have hn : n = 0 := by simpa using h
    subst hn; rfl
  | cons x xs ih =>
    cases n with
    | zero => rfl
    | succ n =>
      rw [List.insertIdx_succ_cons]
      simp only [List.take_succ_cons, List.drop_succ_cons, List.cons_append,
        List.cons.injEq, true_and]
      exact ih n (by simpa using h)

theorem sorted_minTime_head {l : List Nat} (hs : List.Pairwise (· ≤ ·) l) :
    minTime l = l.head? := by
  induction l with
  | nil => rfl
  | cons t l ih =>
    rw [List.pairwise_cons] at hs
    obtain ⟨hhead, htail⟩ := hs
    rw [minTime_cons, ih htail]
    cases hl : l with
    | nil => rfl
    | cons u l' =>
      have hu : t ≤ u := hhead u (by simp [hl])
      subst hl
      simp [pushMin]
      omega

theorem sorted_maxTime_getLast {l : List Nat} (hs : List.Pairwise (· ≤ ·) l) :
    maxTime l = l.getLast? := by
  induction l with
  | nil => rfl
  | cons t l ih =>
    rw [List.pairwise_cons] at hs
    obtain ⟨hhead, htail⟩ := hs
    rw [maxTime_cons, ih htail]
    cases hl : l with
    | nil => rfl
    | cons u l' =>
      subst hl
      cases hg : (u :: l').getLast? with
      | none => simp at hg
      | some g =>
        have hgmem : g ∈ u :: l' := by
          obtain ⟨hne, hgl⟩ := List.mem_getLast?_eq_getLast (by rw [hg]; rfl)
          rw [hgl]
          exact List.getLast_mem hne
        have : t ≤ g := hhead g hgmem
        rw [List.getLast?_cons_cons, hg]
        simp [pushMax]
        omega

theorem find_last_getD_zero_eq_countP {α : Type} (s : TinyTimeSeries α)
    (t cs ce : Nat) (hst : s.start_time = some cs) (hen : s.end_time = some ce)
    (hpw : List.Pairwise (fun a b : TimeSeriesEntry α =>
      a.system_time ≤ b.system_time) s.data)
    (hbound : ∀ x ∈ times s, cs ≤ x)
    (htce : t ≤ ce) :
    (s.find_last_index_after_time t).getD 0 =
      s.data.countP (fun e => decide (e.system_time ≤ t)) := by
  unfold TinyTimeSeries.find_last_index_after_time
  rw [hst, hen]
  simp only [Option.bind_eq_bind, Option.some_bind]
  by_cases hlt : t < cs
  · rw [if_pos (by simp; omega)]
    have : s.data.countP (fun e => decide (e.system_time ≤ t)) = 0 := by
      rw [List.countP_eq_zero]
      intro e he
      have : cs ≤ e.system_time := hbound e.system_time (by
        unfold times; exact List.mem_map_of_mem _ he)
      simp; omega
    simp [this]
  · rw [if_neg (by simp; omega)]
    rw [rpositionLe_sorted t hpw]
    cases hc : s.data.countP (fun e => decide (e.system_time ≤ t)) with
    | zero => simp
    | succ n => simp

theorem find_last_getD_len_eq_countP {α : Type} (s : TinyTimeSeries α)
    (t cs ce : Nat) (hst : s.start_time = some cs) (hen : s.end_time = some ce)
    (hpw : List.Pairwise (fun a b : TimeSeriesEntry α =>
      a.system_time ≤ b.system_time) s.data)
    (hlow : ∀ x ∈ times s, cs ≤ x) (hhigh : ∀ x ∈ times s, x ≤ ce)
    (hmem : cs ∈ times s) (htcs : cs ≤ t) :
    (s.find_last_index_after_time t).getD s.data.length =
      s.data.countP (fun e => decide (e.system_time ≤ t)) := by
  unfold TinyTimeSeries.find_last_index_after_time
  rw [hst, hen]
  simp only [Option.bind_eq_bind, Option.some_bind]
  by_cases hgt : t > ce
  · rw [if_pos (by simp; omega)]
    have : s.data.countP (fun e => decide (e.system_time ≤ t)) = s.data.length := by
      rw [List.countP_eq_length]
      intro e he
      have : e.system_time ≤ ce := hhigh e.system_time (by
        unfold times; exact List.mem_map_of_mem _ he)
      simp; omega
    simp [this]
  · rw [if_neg (by simp; omega)]
    rw [rpositionLe_sorted t hpw]
    cases hc : s.data.countP (fun e => decide (e.system_time ≤ t)) with
    | zero =>
      exfalso
      obtain ⟨e, he, hcs⟩ := List.mem_map.mp hmem
      have : 0 < s.data.countP (fun e => decide (e.system_time ≤ t)) := by
        rw [List.countP_pos]
        exact ⟨e, he, by simp; omega⟩
      omega
    | succ n => simp

theorem gvir_data_eq_filter {α : Type} (s : TinyTimeSeries α) (st en : Nat)
    (hsort : SortedByTime s) (hw : WF s) (hse : st ≤ en)
    (hce : ∀ ce, s.end_time = some ce → st ≤ ce) :
    optData (s.get_values_in_range st en) =
      s.data.filter
        (fun e => decide (st < e.system_time) && decide (e.system_time ≤ en)) := by
  have hpw := (sortedByTime_iff_pairwise s).mp hsort
  obtain ⟨hw1, hw2⟩ := hw
  by_cases hdata : s.data = []
  · unfold TinyTimeSeries.get_values_in_range
    rw [hdata]
    simp [optData]
  · have htne : times s ≠ [] := by simp [times, hdata]
    cases hmin : minTime (times s) with
    | none => exact absurd ((minTime_eq_none_iff _).mp hmin) htne
    | some cs =>
    cases hmax : maxTime (times s) with
    | none => exact absurd ((maxTime_eq_none_iff _).mp hmax) htne
    | some ce =>
    have hst : s.start_time = some cs := by rw [hw1, hmin]
    have hen : s.end_time = some ce := by rw [hw2, hmax]
    have hlow : ∀ x ∈ times s, cs ≤ x := minTime_le hmin
    have hhigh : ∀ x ∈ times s, x ≤ ce := maxTime_ge hmax
    have hmem : cs ∈ times s := minTime_mem hmin
    have hstce : st ≤ ce := hce ce hen
    simp only [TinyTimeSeries.get_values_in_range]
    rw [if_neg (by simp [hdata])]
    rw [hst]
    dsimp only
    by_cases hencs : en < cs
    · rw [if_pos hencs]
      simp only [optData, Option.map_none', Option.getD_none]
      symm
      rw [List.filter_eq_nil_iff]
      intro e he
      have : cs ≤ e.system_time :=
        hlow e.system_time (by unfold times; exact List.mem_map_of_mem _ he)
      simp
      omega
    · rw [if_neg hencs]
      have hA := find_last_getD_zero_eq_countP s st cs ce hst hen hpw hlow hstce
      have hE := find_last_getD_len_eq_countP s en cs ce hst hen hpw hlow hhigh hmem
        (by omega)
      rw [hA, hE]
      have htake := sorted_take_countP en hpw
      have hfpw := hpw.filter (fun e => decide (e.system_time ≤ en))
      have hdrop := sorted_drop_countP st hfpw
      have hcount :
          (s.data.filter (fun e => decide (e.system_time ≤ en))).countP
              (fun e => decide (e.system_time ≤ st)) =
            s.data.countP (fun e => decide (e.system_time ≤ st)) := by
        rw [List.countP_filter, List.countP_eq_length_filter,
          List.countP_eq_length_filter]
        congr 1
        apply List.filter_congr
        intro e he
        by_cases h1 : e.system_time ≤ st <;> simp [h1] <;> omega
      have hslice :
          ((s.data.take (s.data.countP (fun e => decide (e.system_time ≤ en)))).drop
              (s.data.countP (fun e => decide (e.system_time ≤ st)))) =
            s.data.filter
              (fun e => decide (st < e.system_time) && decide (e.system_time ≤ en)) := by
        rw [htake, ← hcount, hdrop, List.filter_filter]
      rw [hslice]
      by_cases hempty :
        (s.data.filter
          (fun e => decide (st < e.system_time) && decide (e.system_time ≤ en))).isEmpty
      · rw [if_pos hempty]
        rw [List.isEmpty_iff] at hempty
        simp [optData, hempty]
      · rw [if_neg hempty]
        simp [optData]

theorem gvir_some_shape {α : Type} {s : TinyTimeSeries α} {st en : Nat}
    {r : TinyTimeSeries α} (h : s.get_values_in_range st en = some r) :
    r.data.Sublist s.data ∧
      r.start_time = r.data.head?.map (fun d => d.system_time) ∧
      r.end_time = r.data.getLast?.map (fun d => d.system_time) := by
  unfold TinyTimeSeries.get_values_in_range at h
  split at h
  · exact absurd h (by simp)
  · split at h
    · exact absurd h (by simp)
    · dsimp only at h
      split at h
      · exact absurd h (by simp)
      · split at h
        · exact absurd h (by simp)
        · rw [Option.some.injEq] at h
          subst h
          refine ⟨?_, rfl, rfl⟩
          exact (List.drop_sublist _ _).trans (List.take_sublist _ _)

theorem WF_of_sorted_shape {α : Type} (r : TinyTimeSeries α)
    (hs : List.Pairwise (fun a b : TimeSeriesEntry α =>
      a.system_time ≤ b.system_time) r.data)
    (h1 : r.start_time = r.data.head?.map (fun d => d.system_time))
    (h2 : r.end_time = r.data.getLast?.map (fun d => d.system_time)) : WF r := by
  have hsmap : List.Pairwise (· ≤ ·) (times r) := by
    unfold times
    exact List.pairwise_map.mpr hs
  constructor
  · rw [h1, sorted_minTime_head hsmap]
    unfold times
    rw [List.head?_map]
  · rw [h2, sorted_maxTime_getLast hsmap]
    unfold times
    rw [List.getLast?_map]

theorem gvir_some_sorted_WF {α : Type} {s : TinyTimeSeries α} {st en : Nat}
    {r : TinyTimeSeries α} (hsort : SortedByTime s)
    (h : s.get_values_in_range st en = some r) :
    SortedByTime r ∧ WF r := by
  obtain ⟨hsub, h1, h2⟩ := gvir_some_shape h
  have hpw := (sortedByTime_iff_pairwise s).mp hsort
  have hrpw := hpw.sublist hsub
  refine ⟨(sortedByTime_iff_pairwise r).mpr hrpw, WF_of_sorted_shape r hrpw h1 h2⟩

theorem insert_entry_sorted {α : Type} (s : TinyTimeSeries α) (e : TimeSeriesEntry α)
    (hsort : SortedByTime s) (hw : WF s)
    (hge : ∀ cs, s.start_time = some cs → cs ≤ e.system_time) :
    SortedByTime (s.insert_entry e) := by
  have hpw := (sortedByTime_iff_pairwise s).mp hsort
  obtain ⟨hw1, hw2⟩ := hw
  rw [sortedByTime_iff_pairwise]
  unfold TinyTimeSeries.insert_entry
  cases hf : s.find_last_index_after_time e.system_time with
  | none =>
    dsimp only
    rw [update_start_and_end_data]
    dsimp only
    by_cases hdata : s.data = []
    · simp [hdata]
    · have htne : times s ≠ [] := by simp [times, hdata]
      cases hmin : minTime (times s) with
      | none => exact absurd ((minTime_eq_none_iff _).mp hmin) htne
      | some cs =>
      cases hmax : maxTime (times s) with
      | none => exact absurd ((maxTime_eq_none_iff _).mp hmax) htne
      | some ce =>
      have hst : s.start_time = some cs := by rw [hw1, hmin]
      have hen : s.end_time = some ce := by rw [hw2, hmax]
      have hcse : cs ≤ e.system_time := hge cs hst
      -- find returned none with both bounds present: the time is past the end
      have hgt : e.system_time > ce := by
        by_contra hle
        unfold TinyTimeSeries.find_last_index_after_time at hf
        rw [hst, hen] at hf
        simp only [Option.bind_eq_bind, Option.some_bind] at hf
        rw [if_neg (by simp; omega)] at hf
        rw [rpositionLe_sorted e.system_time hpw] at hf
        have hmem : cs ∈ times s := minTime_mem hmin
        obtain ⟨x, hx, hxcs⟩ := List.mem_map.mp hmem
        have hpos : 0 < s.data.countP
            (fun d => decide (d.system_time ≤ e.system_time)) := by
          rw [List.countP_pos_iff]
          exact ⟨x, hx, by simp; omega⟩
        cases hc : s.data.countP (fun d => decide (d.system_time ≤ e.system_time)) with
        | zero => omega
        | succ n => rw [hc] at hf; simp at hf
      rw [List.pairwise_append]
      refine ⟨hpw, by simp, ?_⟩
      intro a ha b hb
      rw [List.mem_singleton] at hb
      subst hb
      have : a.system_time ≤ ce :=
        maxTime_ge hmax a.system_time (by unfold times; exact List.mem_map_of_mem _ ha)
      omega
  | some idx =>
    dsimp only
    rw [update_start_and_end_data]
    dsimp only
    -- the find succeeded: bounds exist and the time is inside them
    unfold TinyTimeSeries.find_last_index_after_time at hf
    cases hst : s.start_time with
    | none => rw [hst] at hf; simp at hf
    | some cs =>
    cases hen : s.end_time with
    | none => rw [hst, hen] at hf; simp at hf
    | some ce =>
    rw [hst, hen] at hf
    simp only [Option.bind_eq_bind, Option.some_bind] at hf
    split at hf
    · simp at hf
    · rw [rpositionLe_sorted e.system_time hpw] at hf
      cases hc : s.data.countP (fun d => decide (d.system_time ≤ e.system_time)) with
      | zero => rw [hc] at hf; simp at hf
      | succ n =>
        rw [hc] at hf
        simp only [Option.map_some', Option.some.injEq] at hf
        have hidx : idx = n + 1 := by omega
        subst hidx
        have hcle : n + 1 ≤ s.data.length := by
          rw [← hc]
          exact List.countP_le_length _
        rw [insertIdx_eq_take_append s.data (n + 1) e hcle]
        rw [← hc, sorted_take_countP e.system_time hpw,
          sorted_drop_countP e.system_time hpw]
        rw [List.pairwise_append]
        refine ⟨hpw.filter _, ?_, ?_⟩
        · rw [List.pairwise_cons]
          refine ⟨?_, hpw.filter _⟩
          intro b hb
          have := (List.mem_filter.mp hb).2
          simp at this
          omega
        · intro a ha b hb
          have ha' := (List.mem_filter.mp ha).2
          simp at ha'
          rcases List.mem_cons.mp hb with hb | hb
          · subst hb; exact ha'
          · have hb' := (List.mem_filter.mp hb).2
            simp at hb'
            omega

theorem insert_entry_WF {α : Type} (s : TinyTimeSeries α) (e : TimeSeriesEntry α)
    (hw : WF s) : WF (s.insert_entry e) := by
  obtain ⟨h1, h2⟩ := hw
  have hperm : List.Perm (times (s.insert_entry e)) (e.system_time :: times s) := by
    have h := (insert_entry_data_perm s e).map (fun x : TimeSeriesEntry α => x.system_time)
    simpa [times] using h
  constructor
  · rw [insert_entry_start, minTime_perm hperm, minTime_cons, h1]
  · rw [insert_entry_end, maxTime_perm hperm, maxTime_cons, h2]

/-! Helper lemmas about append. -/

theorem is_empty_false_iff {α : Type} (t : TinyTimeSeries α) :
    t.is_empty = false ↔ t.start_time ≠ none ∧ t.data ≠ [] := by
  unfold TinyTimeSeries.is_empty
  cases t.start_time <;> cases t.data <;> simp

theorem WF_end_some {α : Type} (t : TinyTimeSeries α) (hw : WF t)
    (hne : t.data ≠ []) : ∃ mt, t.end_time = some mt := by
  have htne : times t ≠ [] := by simp [times, hne]
  cases hmax : maxTime (times t) with
  | none => exact absurd ((maxTime_eq_none_iff _).mp hmax) htne
  | some mt => exact ⟨mt, by rw [hw.2, hmax]⟩

theorem WF_start_some {α : Type} (t : TinyTimeSeries α) (hw : WF t)
    (hne : t.data ≠ []) : ∃ mt, t.start_time = some mt := by
  have htne : times t ≠ [] := by simp [times, hne]
  cases hmin : minTime (times t) with
  | none => exact absurd ((minTime_eq_none_iff _).mp hmin) htne
  | some mt => exact ⟨mt, by rw [hw.1, hmin]⟩

theorem append_none_iff {α : Type} (s t : TinyTimeSeries α) (hwt : WF t) :
    TinyTimeSeries.append s t = none ↔
      t.is_empty = false ∧
        (optGt s.start_time t.start_time = true ∨
          optGt s.end_time t.end_time = true) := by
  unfold TinyTimeSeries.append
  by_cases hemp : t.is_empty
  · rw [if_pos hemp]
    simp [hemp]
  · rw [if_neg hemp]
    rw [Bool.not_eq_true] at hemp
    obtain ⟨-, hne⟩ := (is_empty_false_iff t).mp hemp
    obtain ⟨te, hte⟩ := WF_end_some t hwt hne
    by_cases h1 : optGt s.start_time t.start_time
    · rw [if_pos h1]; simp [hemp, h1]
    · rw [if_neg h1]
      by_cases h2 : optGt s.end_time t.end_time
      · rw [if_pos h2]; simp [hemp, h2]
      · rw [hte] at h2
        rw [hte, if_neg h2]
        simp [hemp, h1, h2]

theorem append_WF {α : Type} (s t r : TinyTimeSeries α) (hws : WF s) (hwt : WF t)
    (hne : s.data ≠ []) (h : TinyTimeSeries.append s t = some r) : WF r := by
  unfold TinyTimeSeries.append at h
  by_cases hemp : t.is_empty
  · rw [if_pos hemp] at h
    rw [Option.some.injEq] at h
    subst h
    exact hws
  · rw [if_neg hemp] at h
    rw [Bool.not_eq_true] at hemp
    obtain ⟨-, htne⟩ := (is_empty_false_iff t).mp hemp
    obtain ⟨ms, hms⟩ := WF_start_some s hws hne
    obtain ⟨Ms, hMs⟩ := WF_end_some s hws hne
    obtain ⟨mt, hmt⟩ := WF_start_some t hwt htne
    obtain ⟨Mt, hMt⟩ := WF_end_some t hwt htne
    by_cases h1 : optGt s.start_time t.start_time
    · rw [if_pos h1] at h
      exact absurd h (by simp)
    · rw [if_neg h1] at h
      by_cases h2 : optGt s.end_time t.end_time
      · rw [if_pos h2] at h
        exact absurd h (by simp)
      · rw [if_neg h2] at h
        rw [hMt] at h
        dsimp only at h
        rw [Option.some.injEq] at h
        subst h
        rw [hms, hmt] at h1
        rw [hMs, hMt] at h2
        simp only [optGt, optLt, decide_eq_true_eq] at h1 h2
        have hmsmt : ms ≤ mt := by omega
        have hMsMt : Ms ≤ Mt := by omega
        have hmins : minTime (times s) = some ms := by rw [← hws.1, hms]
        have hmaxs : maxTime (times s) = some Ms := by rw [← hws.2, hMs]
        have hmint : minTime (times t) = some mt := by rw [← hwt.1, hmt]
        have hmaxt : maxTime (times t) = some Mt := by rw [← hwt.2, hMt]
        have htimes : times
            ({ init_size := s.init_size + t.init_size, data := s.data ++ t.data,
               start_time := s.start_time, end_time := some Mt } : TinyTimeSeries α) =
            times s ++ times t := by
          unfold times
          simp
        constructor
        · dsimp only
          rw [htimes, minTime_append, hmins, hmint, hms]
          simp only [pushMin]
          rw [Nat.min_eq_left hmsmt]
        · dsimp only
          rw [htimes, maxTime_append, hmaxs, hmaxt]
          simp only [pushMax]
          rw [Nat.max_eq_right hMsMt]

/-! Helper lemmas for the serialization round-trip. -/

theorem decodeOptNat_encodeOptNat (o : Option Nat) (rest : List Nat) :
    decodeOptNat (encodeOptNat o ++ rest) = some (o, rest) := by
  cases o <;> rfl

theorem decodeEntries_encodeEntries {α : Type} (encA : α → Nat) (decA : Nat → Option α)
    (hA : ∀ a, decA (encA a) = some a) (l : List (TimeSeriesEntry α)) (rest : List Nat) :
    decodeEntries decA l.length (encodeEntries encA l ++ rest) = some (l, rest) := by
  induction l with
  | nil => rfl
  | cons e l ih =>
    show decodeEntries decA (l.length + 1)
      (e.system_time :: encA e.value :: (encodeEntries encA l ++ rest)) = _
    unfold decodeEntries
    rw [hA e.value, ih]

theorem compressed_json_roundtrip {α : Type} (zenc : Int → List Nat → List Nat)
    (zdec : List Nat → Option (List Nat)) (encA : α → Nat) (decA : Nat → Option α)
    (hz : ∀ lvl b, zdec (zenc lvl b) = some b) (hA : ∀ a, decA (encA a) = some a)
    (s : TinyTimeSeries α) (level : Int) :
    from_compressed_json zdec decA (to_compressed_json zenc encA s level) = some s := by
  unfold from_compressed_json to_compressed_json
  rw [hz]
  show serde_json_decode decA (serde_json_encode encA s) = some s
  unfold serde_json_encode serde_json_decode
  dsimp only
  rw [List.append_assoc]
  rw [decodeEntries_encodeEntries encA decA hA]
  dsimp only
  rw [← List.append_nil (encodeOptNat s.end_time)]
  rw [decodeOptNat_encodeOptNat]
  dsimp only
  rw [decodeOptNat_encodeOptNat]
  rfl

/-! Helper lemmas for persisted-segment index resolution. -/

theorem segA_cons_zero (s1 : Nat × Nat) (l : List (Nat × Nat)) :
    segA (s1 :: l) 0 = s1.1 := rfl

theorem segB_cons_zero (s1 : Nat × Nat) (l : List (Nat × Nat)) :
    segB (s1 :: l) 0 = s1.2 := rfl

theorem segA_cons_succ (s1 : Nat × Nat) (l : List (Nat × Nat)) (j : Nat) :
    segA (s1 :: l) (j + 1) = segA l j := by
  simp [segA, List.getD]

theorem segB_cons_succ (s1 : Nat × Nat) (l : List (Nat × Nat)) (j : Nat) :
    segB (s1 :: l) (j + 1) = segB l j := by
  simp [segB, List.getD]

theorem segA_eq_get (ss : List (Nat × Nat)) (k : Nat) (hk : k < ss.length) :
    segA ss k = (ss.get ⟨k, hk⟩).1 := by
  simp [segA, List.getD_eq_getElem?_getD, List.getElem?_eq_getElem hk,
    List.get_eq_getElem]

theorem segB_eq_get (ss : List (Nat × Nat)) (k : Nat) (hk : k < ss.length) :
    segB ss k = (ss.get ⟨k, hk⟩).2 := by
  simp [segB, List.getD_eq_getElem?_getD, List.getElem?_eq_getElem hk,
    List.get_eq_getElem]

theorem segA_le_segB {ss : List (Nat × Nat)} (ho : SegsOrdered ss) {k : Nat}
    (hk : k < ss.length) : segA ss k ≤ segB ss k := by
  rw [segA_eq_get ss k hk, segB_eq_get ss k hk]
  exact ho.2 _ (List.get_mem ss k hk)

theorem segB_lt_segA {ss : List (Nat × Nat)} (ho : SegsOrdered ss) {i j : Nat}
    (hij : i < j) (hj : j < ss.length) : segB ss i < segA ss j := by
  induction j with
  | zero => omega
  | succ j ih =>
    have hchain := List.chain'_iff_get.mp ho.1
    have hstep : segB ss j < segA ss (j + 1) := by
      have hj' : j < ss.length - 1 := by omega
      have := hchain j hj'
      rw [segB_eq_get ss j (by omega), segA_eq_get ss (j + 1) hj]
      exact this
    rcases Nat.lt_or_ge i j with hij' | hij'
    · have hb := ih hij' (by omega)
      have hab := segA_le_segB ho (show j < ss.length by omega)
      omega
    · have : i = j := by omega
      subst this
      exact hstep

theorem segA_mono {ss : List (Nat × Nat)} (ho : SegsOrdered ss) {i j : Nat}
    (hij : i ≤ j) (hj : j < ss.length) : segA ss i ≤ segA ss j := by
  rcases Nat.lt_or_ge i j with h | h
  · have h1 := segA_le_segB ho (show i < ss.length by omega)
    have h2 := segB_lt_segA ho h hj
    omega
  · have : i = j := by omega
    subst this
    omega

theorem posPair_spec_some {t : Nat} {ss : List (Nat × Nat)} {i : Nat}
    (h : SunnyDB.posPair t ss = some i) :
    i + 1 < ss.length ∧ (segA ss i ≤ t ∧ t ≤ segB ss (i + 1)) := by
  induction ss generalizing i with
  | nil => simp [SunnyDB.posPair] at h
  | cons s1 rest ih =>
    cases rest with
    | nil => simp [SunnyDB.posPair] at h
    | cons s2 rest2 =>
      rw [SunnyDB.posPair] at h
      by_cases hc : SunnyDB.segPairCond t s1 s2
      · rw [if_pos hc] at h
        rw [Option.some.injEq] at h
        subst h
        unfold SunnyDB.segPairCond at hc
        simp only [Bool.and_eq_true, decide_eq_true_eq] at hc
        refine ⟨by simp, hc.1, ?_⟩
        rw [segB_cons_succ, segB_cons_zero]
        exact hc.2
      · rw [if_neg hc] at h
        simp only [Option.map_eq_some'] at h
        obtain ⟨j, hj, rfl⟩ := h
        obtain ⟨h1, h2⟩ := ih hj
        refine ⟨by simpa using h1, ?_, ?_⟩
        · rw [segA_cons_succ]
          exact h2.1
        · rw [segB_cons_succ]
          exact h2.2

theorem posPair_spec_none {t : Nat} {ss : List (Nat × Nat)}
    (h : SunnyDB.posPair t ss = none) :
    ∀ j, j + 1 < ss.length → ¬(segA ss j ≤ t ∧ t ≤ segB ss (j + 1)) := by
  induction ss with
  | nil => intro j hj; simp at hj
  | cons s1 rest ih =>
    cases rest with
    | nil => intro j hj; simp at hj
    | cons s2 rest2 =>
      rw [SunnyDB.posPair] at h
      by_cases hc : SunnyDB.segPairCond t s1 s2
      · rw [if_pos hc] at h; simp at h
      · rw [if_neg hc] at h
        rw [Option.map_eq_none'] at h
        intro j hj
        cases j with
        | zero =>
          intro hcontra
          apply hc
          unfold SunnyDB.segPairCond
          rw [segB_cons_succ, segB_cons_zero] at hcontra
          simp only [Bool.and_eq_true, decide_eq_true_eq]
          exact ⟨hcontra.1, hcontra.2⟩
        | succ j' =>
          intro hcontra
          rw [segA_cons_succ, segB_cons_succ] at hcontra
          exact ih h j' (by simpa using hj) hcontra

theorem posPair_isSome {ss : List (Nat × Nat)} {t : Nat}
    (ho : SegsOrdered ss) (h2 : 2 ≤ ss.length) (ha0 : segA ss 0 ≤ t)
    (hex : ∃ k, k < ss.length ∧ t ≤ segB ss k) :
    ∃ i, SunnyDB.posPair t ss = some i := by
  cases hp : SunnyDB.posPair t ss with
  | some i => exact ⟨i, rfl⟩
  | none =>
    exfalso
    have hnone := posPair_spec_none hp
    have hex' : ∃ k, t ≤ segB ss k ∧ k < ss.length := by
      obtain ⟨k, hk1, hk2⟩ := hex
      exact ⟨k, hk2, hk1⟩
    have hk := Nat.find_spec hex'
    have hklen : Nat.find hex' < ss.length := hk.2
    rcases Nat.eq_zero_or_pos (Nat.find hex') with hzero | hpos
    · rw [hzero] at hk
      refine hnone 0 (by omega) ⟨ha0, ?_⟩
      have hb01 : segB ss 0 < segA ss 1 := segB_lt_segA ho (by omega) (by omega)
      have ha1b1 : segA ss 1 ≤ segB ss 1 := segA_le_segB ho (by omega)
      have h1 : t ≤ segB ss 1 := by omega
      simpa using h1
    · obtain ⟨m, hm⟩ : ∃ m, Nat.find hex' = m + 1 := ⟨Nat.find hex' - 1, by omega⟩
      rw [hm] at hk
      have hmlen : m < ss.length := by omega
      have hbm : segB ss m < t := by
        by_contra hge
        have := Nat.find_min hex' (show m < Nat.find hex' from by omega)
        exact this ⟨by omega, hmlen⟩
      have hambm : segA ss m ≤ segB ss m := segA_le_segB ho hmlen
      exact hnone m (by omega) ⟨by omega, hk.1⟩

theorem resolve_isSome_le {ss : List (Nat × Nat)} {t : Nat}
    (ho : SegsOrdered ss) (h2 : 2 ≤ ss.length) (ha0 : segA ss 0 ≤ t)
    {j : Nat} (hj : j < ss.length) (hbj : t ≤ segB ss j) :
    ∃ v, SunnyDB.resolve_segment_index ss t = some v ∧ v ≤ j := by
  obtain ⟨i, hi⟩ := posPair_isSome ho h2 ha0 ⟨j, hj, hbj⟩
  obtain ⟨hilen, hai, hbi1⟩ := posPair_spec_some hi
  unfold SunnyDB.resolve_segment_index
  rw [hi]
  dsimp only
  by_cases hbi : (ss.getD i (0, 0)).2 < t
  · rw [if_pos hbi]
    refine ⟨i + 1, rfl, ?_⟩
    have hbi' : segB ss i < t := hbi
    by_contra hlt
    push_neg at hlt
    rcases Nat.lt_or_ge j i with hj2 | hj2
    · have := segB_lt_segA ho hj2 (by omega)
      omega
    · have hji : j = i := by omega
      subst hji
      omega
  · rw [if_neg hbi]
    refine ⟨i, rfl, ?_⟩
    by_contra hlt
    push_neg at hlt
    have := segB_lt_segA ho hlt (by omega)
    omega

theorem resolve_isSome_ge {ss : List (Nat × Nat)} {t : Nat}
    (ho : SegsOrdered ss) (h2 : 2 ≤ ss.length) (ha0 : segA ss 0 ≤ t)
    (hlast : t ≤ segB ss (ss.length - 1)) {j : Nat} (hj : j < ss.length)
    (haj : segA ss j ≤ t) :
    ∃ w, SunnyDB.resolve_segment_index ss t = some w ∧ j ≤ w := by
  obtain ⟨i, hi⟩ := posPair_isSome ho h2 ha0 ⟨ss.length - 1, by omega, hlast⟩
  obtain ⟨hilen, hai, hbi1⟩ := posPair_spec_some hi
  unfold SunnyDB.resolve_segment_index
  rw [hi]
  dsimp only
  by_cases hbi : (ss.getD i (0, 0)).2 < t
  · rw [if_pos hbi]
    refine ⟨i + 1, rfl, ?_⟩
    by_contra hlt
    push_neg at hlt
    have := segB_lt_segA ho (show i + 1 < j by omega) hj
    omega
  · rw [if_neg hbi]
    refine ⟨i, rfl, ?_⟩
    have hbi' : ¬ segB ss i < t := hbi
    by_contra hlt
    push_neg at hlt
    have := segB_lt_segA ho (show i < j by omega) hj
    omega

theorem getLast_snd_eq_segB (f : Nat × Nat) (rest : List (Nat × Nat)) :
    ((f :: rest).getLast (List.cons_ne_nil f rest)).2 =
      segB (f :: rest) ((f :: rest).length - 1) := by
  rw [List.getLast_eq_getElem]
  rw [segB_eq_get (f :: rest) ((f :: rest).length - 1) (by simp)]
  rw [List.get_eq_getElem]

/-! Claim theorems. -/

/-- C3, counterexample: with exactly one persisted segment covering 0..100
holding an entry at time 15, the query 10..20 — whose bounds both lie inside
the segment's interval, which therefore intersects the query — resolves to
(none, none), and read_persisted_data returns no data instead of the in-range
entry. -/
theorem C3_counterexample :
    SunnyDB.find_persisted_segment_index [(0, 100)] 10 20 = (none, none) ∧
      SunnyDB.read_persisted_data
          (⟨TinyTimeSeries.new 5, 5, 2, 0,
            [((0, 100), ⟨1, [⟨15, 9⟩], some 15, some 15⟩)]⟩ : SunnyDB Int) 10 20 =
        Except.ok none ∧
      ((0 : Nat) ≤ 20 ∧ (10 : Nat) ≤ 100) := by
  refine ⟨rfl, rfl, by omega⟩

/-- C3 (amended): with at least two persisted segments (parsed, sorted,
pairwise disjoint), the candidate index range selected by
find_persisted_segment_index is defined on both ends and includes every
segment whose interval intersects the query; with exactly one segment, a query
whose bounds both lie strictly within the segment's interval instead resolves
to (None, None) and yields no data (see the counterexample). -/
theorem C3_candidate_range_covers (ss : List (Nat × Nat)) (start_time end_time : Nat)
    (ho : SegsOrdered ss) (h2 : 2 ≤ ss.length) (j : Nat) (hj : j < ss.length)
    (hint1 : segA ss j ≤ end_time) (hint2 : start_time ≤ segB ss j) :
    ∃ v w, SunnyDB.find_persisted_segment_index ss start_time end_time =
        (some v, some w) ∧ v ≤ j ∧ j ≤ w := by
  obtain ⟨f, rest, rfl⟩ : ∃ f rest, ss = f :: rest := by
    cases ss with
    | nil => simp at h2
    | cons f rest => exact ⟨f, rest, rfl⟩
  have ha0e : segA (f :: rest) 0 ≤ end_time :=
    le_trans (segA_mono ho (Nat.zero_le j) hj) hint1
  have hf1 : f.1 = segA (f :: rest) 0 := rfl
  have hlow : ∃ v, (if start_time < f.1 then some 0
      else SunnyDB.resolve_segment_index (f :: rest) start_time) = some v ∧ v ≤ j := by
    by_cases hs : start_time < f.1
    · exact ⟨0, by rw [if_pos hs], Nat.zero_le j⟩
    · obtain ⟨v, hv, hvle⟩ :=
        resolve_isSome_le ho h2 (show segA (f :: rest) 0 ≤ start_time by
          rw [← hf1]; omega) hj hint2
      exact ⟨v, by rw [if_neg hs, hv], hvle⟩
  have hhigh : ∃ w, (if end_time > ((f :: rest).getLast (List.cons_ne_nil f rest)).2
      then some ((f :: rest).length - 1)
      else SunnyDB.resolve_segment_index (f :: rest) end_time) = some w ∧ j ≤ w := by
    by_cases he : end_time > ((f :: rest).getLast (List.cons_ne_nil f rest)).2
    · exact ⟨(f :: rest).length - 1, by rw [if_pos he], by omega⟩
    · have hlastle : end_time ≤ segB (f :: rest) ((f :: rest).length - 1) := by
        rw [← getLast_snd_eq_segB f rest]; omega
      obtain ⟨w, hw, hjw⟩ := resolve_isSome_ge ho h2 ha0e hlastle hj hint1
      exact ⟨w, by rw [if_neg he, hw], hjw⟩
  obtain ⟨v, hv, hvle⟩ := hlow
  obtain ⟨w, hw, hjw⟩ := hhigh
  refine ⟨v, w, ?_, hvle, hjw⟩
  unfold SunnyDB.find_persisted_segment_index
  (try dsimp only)
  rw [if_neg (show ¬ end_time < f.1 by rw [hf1]; omega)]
  (try dsimp only)
  rw [hv, hw]

/-- C3, witness: the amended statement applied to the two segments 0..10 and
20..30 and the query 22..25, which lies inside the second segment. -/
theorem C3_witness :
    ∃ v w, SunnyDB.find_persisted_segment_index [(0, 10), (20, 30)] 22 25 =
        (some v, some w) ∧ v ≤ 1 ∧ 1 ≤ w :=
  C3_candidate_range_covers [(0, 10), (20, 30)] 22 25
    ⟨by norm_num [List.chain'_cons, List.chain'_singleton], by decide⟩
    (by decide) 1 (by decide) (by decide) (by decide)

/-- C4, counterexample: a range query against an entirely empty store (no
segment files, empty buffer) returns Some of an empty series, not the
explicit no-data result None. -/
theorem C4_counterexample :
    SunnyDB.get_values_in_range (⟨TinyTimeSeries.new 5, 5, 2, 0, []⟩ : SunnyDB Int)
        5 10 = Except.ok (some TinyTimeSeries.empty) ∧
      SunnyDB.get_values_in_range (⟨TinyTimeSeries.new 5, 5, 2, 0, []⟩ : SunnyDB Int)
        5 10 ≠ Except.ok none := by
  refine ⟨rfl, ?_⟩
  rw [show SunnyDB.get_values_in_range (⟨TinyTimeSeries.new 5, 5, 2, 0, []⟩ : SunnyDB Int)
      5 10 = Except.ok (some TinyTimeSeries.empty) from rfl]
  simp

/-- C4 (amended): for ordered bounds, the store's range query returns None
exactly when either the buffer shortcut applies (the buffer has a cached start
at or below the query's start) and the buffer's own range extraction returns
None, or the shortcut does not apply, the persisted layer contributes no data,
and the buffer's cached start lies strictly past the query's end; in every
other case — in particular against an entirely empty store — it returns Some
series (possibly an empty one), never None. -/
theorem C4_none_characterization {α : Type} (db : SunnyDB α)
    (start_time end_time : Nat) (hse : start_time ≤ end_time) :
    SunnyDB.get_values_in_range db start_time end_time = Except.ok none ↔
      (SunnyDB.bufferShortcut db start_time ∧
          db.time_series.get_values_in_range start_time end_time = none) ∨
        (¬ SunnyDB.bufferShortcut db start_time ∧
          SunnyDB.read_persisted_data db start_time end_time = Except.ok none ∧
          optGt db.time_series.get_start_time (some end_time) = true) := by
  unfold SunnyDB.get_values_in_range
  rw [if_neg (by omega)]
  unfold SunnyDB.get_values_in_range_body
  by_cases hsc : SunnyDB.bufferShortcut db start_time
  · rw [if_pos hsc]
    constructor
    · intro h
      rw [Except.ok.injEq] at h
      exact Or.inl ⟨hsc, h⟩
    · intro h
      rcases h with ⟨-, h⟩ | ⟨hns, -⟩
      · rw [h]
      · exact absurd hsc hns
  · rw [if_neg hsc]
    cases hr : SunnyDB.read_persisted_data db start_time end_time with
    | error e =>
      dsimp only
      constructor
      · intro h
        exact absurd h (by simp)
      · intro h
        rcases h with ⟨hs', -⟩ | ⟨-, hn, -⟩
        · exact absurd hs' hsc
        · exact absurd hn (by simp)
    | ok rd =>
      dsimp only
      by_cases hg : optGt db.time_series.get_start_time (some end_time) = true
      · rw [if_pos hg]
        constructor
        · intro h
          rw [Except.ok.injEq] at h
          subst h
          exact Or.inr ⟨hsc, rfl, hg⟩
        · intro h
          rcases h with ⟨hs', -⟩ | ⟨-, hn, -⟩
          · exact absurd hs' hsc
          · rw [Except.ok.injEq] at hn
            rw [hn]
      · rw [if_neg hg]
        cases rd with
        | none =>
          dsimp only
          constructor
          · intro h
            exact absurd h (by simp)
          · intro h
            rcases h with ⟨hs', -⟩ | ⟨-, -, hg'⟩
            · exact absurd hs' hsc
            · exact absurd hg' hg
        | some d =>
          dsimp only
          cases ha : TinyTimeSeries.append d
              ((db.time_series.get_values_in_range start_time end_time).getD
                TinyTimeSeries.empty) with
          | none =>
            constructor
            · intro h
              exact absurd h (by simp)
            · intro h
              rcases h with ⟨hs', -⟩ | ⟨-, -, hg'⟩
              · exact absurd hs' hsc
              · exact absurd hg' hg
          | some r =>
            constructor
            · intro h
              exact absurd h (by simp)
            · intro h
              rcases h with ⟨hs', -⟩ | ⟨-, -, hg'⟩
              · exact absurd hs' hsc
              · exact absurd hg' hg

/-- C4, witness: the characterization applied to the entirely empty store,
whose query result Some(empty series) is indeed not None: both sides of the
equivalence are false there. -/
theorem C4_witness :
    SunnyDB.get_values_in_range (⟨TinyTimeSeries.new 3, 3, 2, 0, []⟩ : SunnyDB Int)
        5 10 = Except.ok none ↔
      (SunnyDB.bufferShortcut (⟨TinyTimeSeries.new 3, 3, 2, 0, []⟩ : SunnyDB Int) 5 ∧
          (TinyTimeSeries.new 3 : TinyTimeSeries Int).get_values_in_range 5 10 =
            none) ∨
        (¬ SunnyDB.bufferShortcut (⟨TinyTimeSeries.new 3, 3, 2, 0, []⟩ : SunnyDB Int) 5 ∧
          SunnyDB.read_persisted_data
              (⟨TinyTimeSeries.new 3, 3, 2, 0, []⟩ : SunnyDB Int) 5 10 =
            Except.ok none ∧
          optGt (TinyTimeSeries.new 3 : TinyTimeSeries Int).get_start_time (some 10) =
            true) :=
  C4_none_characterization (⟨TinyTimeSeries.new 3, 3, 2, 0, []⟩ : SunnyDB Int) 5 10
    (by omega)

/-- C1, counterexample: inserting timestamp 5 into a series holding only
timestamp 10 appends the new entry at the back (not the front), and the
resulting values() sequence (10, then 5) is not non-decreasing by
timestamp. -/
theorem C1_counterexample :
    (((TinyTimeSeries.new 2 : TinyTimeSeries Int).insert_value_at_time 10
          0).insert_value_at_time 5 1).get_current_values = [(10, 0), (5, 1)] ∧
      ¬ SortedByTime (((TinyTimeSeries.new 2 : TinyTimeSeries Int).insert_value_at_time
        10 0).insert_value_at_time 5 1) := by
  constructor
  · rfl
  · decide

/-- C1 (amended): an insert whose timestamp is at or above the series' cached
start (in particular any insert into an empty series, or one in non-decreasing
timestamp order) keeps values() non-decreasing by timestamp and preserves the
cache invariant; an insert below the cached start is instead appended at the
back, breaking the ordering (see the counterexample). -/
theorem C1_insert_in_order {α : Type} (s : TinyTimeSeries α) (t : Nat) (v : α)
    (hsort : SortedByTime s) (hw : WF s) (hge : s.start_time.getD t ≤ t) :
    SortedByTime (s.insert_value_at_time t v) ∧ WF (s.insert_value_at_time t v) := by
  refine ⟨insert_entry_sorted s _ hsort hw ?_, insert_entry_WF s _ hw⟩
  intro cs hcs
  rw [hcs] at hge
  simpa using hge

/-- C1, witness: the amended statement applied to the one-entry series at
timestamp 3 and an insert at timestamp 10. -/
theorem C1_witness :
    SortedByTime ((⟨1, [⟨3, 0⟩], some 3, some 3⟩ : TinyTimeSeries Int).insert_value_at_time
        10 1) ∧
      WF ((⟨1, [⟨3, 0⟩], some 3, some 3⟩ : TinyTimeSeries Int).insert_value_at_time 10 1) :=
  C1_insert_in_order (⟨1, [⟨3, 0⟩], some 3, some 3⟩ : TinyTimeSeries Int) 10 1
    (by decide) (by decide) (by decide)

/-- C2, counterexample: on the ordered two-entry series at timestamps 0 and 10,
range(0, 10) omits the boundary entry with timestamp exactly equal to the start
bound; and on the one-entry series at timestamp 0, range(5, 10) (whose start
exceeds the cached end) returns the entry with timestamp 0, violating
start <= t. -/
theorem C2_counterexample :
    SortedByTime (⟨2, [⟨0, 7⟩, ⟨10, 8⟩], some 0, some 10⟩ : TinyTimeSeries Int) ∧
      WF (⟨2, [⟨0, 7⟩, ⟨10, 8⟩], some 0, some 10⟩ : TinyTimeSeries Int) ∧
      optData ((⟨2, [⟨0, 7⟩, ⟨10, 8⟩], some 0, some 10⟩ :
        TinyTimeSeries Int).get_values_in_range 0 10) = [⟨10, 8⟩] ∧
      optData ((⟨1, [⟨0, 7⟩], some 0, some 0⟩ :
        TinyTimeSeries Int).get_values_in_range 5 10) = [⟨0, 7⟩] := by
  refine ⟨by decide, by decide, rfl, rfl⟩

/-- C2 (amended): for a correctly ordered, cache-consistent series and bounds
start <= end with start not exceeding the cached end, the returned entries are
exactly those with start < t <= end: the half-open bound is exclusive at
start — an entry with t = start is omitted — and every entry strictly inside
the bound is included.  (When start exceeds the cached end the entire series
is returned instead; see the counterexample.) -/
theorem C2_range_half_open {α : Type} (s : TinyTimeSeries α) (st en : Nat)
    (hsort : SortedByTime s) (hw : WF s) (hse : st ≤ en)
    (hce : st ≤ s.end_time.getD st) :
    optData (s.get_values_in_range st en) =
        s.data.filter
          (fun e => decide (st < e.system_time) && decide (e.system_time ≤ en)) ∧
      (∀ e ∈ optData (s.get_values_in_range st en),
        st < e.system_time ∧ e.system_time ≤ en) ∧
      (∀ e ∈ s.data, st < e.system_time → e.system_time ≤ en →
        e ∈ optData (s.get_values_in_range st en)) := by
  have hce' : ∀ ce, s.end_time = some ce → st ≤ ce := by
    intro ce h
    rw [h] at hce
    simpa using hce
  have hmain := gvir_data_eq_filter s st en hsort hw hse hce'
  refine ⟨hmain, ?_, ?_⟩
  · intro e he
    rw [hmain] at he
    have h2 := (List.mem_filter.mp he).2
    simp only [Bool.and_eq_true, decide_eq_true_eq] at h2
    exact h2
  · intro e he h1 h2
    rw [hmain]
    exact List.mem_filter.mpr ⟨he, by simp [h1, h2]⟩

/-- C2, witness: the amended statement applied to the two-entry series at
timestamps 0 and 10 with the query range 0..10. -/
theorem C2_witness :
    optData ((⟨2, [⟨0, 7⟩, ⟨10, 8⟩], some 0, some 10⟩ :
          TinyTimeSeries Int).get_values_in_range 0 10) =
        (⟨2, [⟨0, 7⟩, ⟨10, 8⟩], some 0, some 10⟩ :
          TinyTimeSeries Int).data.filter
          (fun e => decide (0 < e.system_time) && decide (e.system_time ≤ 10)) ∧
      (∀ e ∈ optData ((⟨2, [⟨0, 7⟩, ⟨10, 8⟩], some 0, some 10⟩ :
          TinyTimeSeries Int).get_values_in_range 0 10),
        0 < e.system_time ∧ e.system_time ≤ 10) ∧
      (∀ e ∈ (⟨2, [⟨0, 7⟩, ⟨10, 8⟩], some 0, some 10⟩ : TinyTimeSeries Int).data,
        0 < e.system_time → e.system_time ≤ 10 →
        e ∈ optData ((⟨2, [⟨0, 7⟩, ⟨10, 8⟩], some 0, some 10⟩ :
          TinyTimeSeries Int).get_values_in_range 0 10)) :=
  C2_range_half_open (⟨2, [⟨0, 7⟩, ⟨10, 8⟩], some 0, some 10⟩ : TinyTimeSeries Int)
    0 10 (by decide) (by decide) (by decide) (by decide)

/-- C5, counterexample: for the overlapping pair with receiver spanning 0..10
and argument spanning 5..20, the receiver's cached end (10) exceeds the
argument's cached start (5), yet append succeeds without a panic. -/
theorem C5_counterexample :
    optGt (⟨2, [⟨0, 1⟩, ⟨10, 2⟩], some 0, some 10⟩ : TinyTimeSeries Int).end_time
        (⟨2, [⟨5, 3⟩, ⟨20, 4⟩], some 5, some 20⟩ : TinyTimeSeries Int).start_time
        = true ∧
      TinyTimeSeries.append (⟨2, [⟨0, 1⟩, ⟨10, 2⟩], some 0, some 10⟩ : TinyTimeSeries Int)
          ⟨2, [⟨5, 3⟩, ⟨20, 4⟩], some 5, some 20⟩ ≠ none := by
  decide

/-- C5 (amended): for a cache-consistent argument, append panics exactly when
the argument is non-empty and either the receiver's cached start exceeds the
argument's cached start or the receiver's cached end exceeds the argument's
cached end (Rust Option ordering); receiver end exceeding argument start alone
does not abort. -/
theorem C5_append_panic_iff {α : Type} (s t : TinyTimeSeries α) (hwt : WF t) :
    TinyTimeSeries.append s t = none ↔
      t.is_empty = false ∧
        (optGt s.start_time t.start_time = true ∨
          optGt s.end_time t.end_time = true) :=
  append_none_iff s t hwt

/-- C5, witness: the amended characterization applied to a receiver at
timestamp 10 and an argument at the earlier timestamp 3, where append does
panic. -/
theorem C5_witness :
    TinyTimeSeries.append (⟨1, [⟨10, 1⟩], some 10, some 10⟩ : TinyTimeSeries Int)
        ⟨1, [⟨3, 2⟩], some 3, some 3⟩ = none ↔
      (⟨1, [⟨3, 2⟩], some 3, some 3⟩ : TinyTimeSeries Int).is_empty = false ∧
        (optGt (⟨1, [⟨10, 1⟩], some 10, some 10⟩ : TinyTimeSeries Int).start_time
            (⟨1, [⟨3, 2⟩], some 3, some 3⟩ : TinyTimeSeries Int).start_time = true ∨
          optGt (⟨1, [⟨10, 1⟩], some 10, some 10⟩ : TinyTimeSeries Int).end_time
            (⟨1, [⟨3, 2⟩], some 3, some 3⟩ : TinyTimeSeries Int).end_time = true) :=
  C5_append_panic_iff (⟨1, [⟨10, 1⟩], some 10, some 10⟩ : TinyTimeSeries Int)
    ⟨1, [⟨3, 2⟩], some 3, some 3⟩ (by decide)

/-- C6, counterexample: on the one-entry series at timestamp 0 with value 3,
integrate reads entries[1], which is out of bounds — the Rust panic, modelled
as Except.error — rather than returning any Option value. -/
theorem C6_counterexample :
    integrate (⟨1, [⟨0, 3⟩], some 0, some 0⟩ : TinyTimeSeries ℚ) =
      Except.error () := by
  rfl

/-- C6 (amended): integrate returns None on an empty series and a value on
every series with at least two entries, but on a non-empty single-entry series
it aborts with an out-of-bounds index instead of returning a degenerate
result. -/
theorem C6_integrate_partiality (s : TinyTimeSeries ℚ) :
    (s.is_empty = true → integrate s = Except.ok none) ∧
      (s.is_empty = false → s.len = 1 → integrate s = Except.error ()) ∧
      (s.is_empty = false → 2 ≤ s.len → ∃ q, integrate s = Except.ok (some q)) := by
  refine ⟨?_, ?_, ?_⟩
  · intro h
    unfold integrate
    rw [if_pos h]
  · intro h hl
    unfold integrate
    rw [if_neg (by simp [h])]
    unfold TinyTimeSeries.len at hl
    obtain ⟨e, he⟩ := List.length_eq_one.mp hl
    simp [TinyTimeSeries.get_current_values, he]
  · intro h hl
    unfold integrate
    rw [if_neg (by simp [h])]
    obtain ⟨e1, e2, rest, hdata⟩ : ∃ e1 e2 rest, s.data = e1 :: e2 :: rest := by
      match hs : s.data with
      | [] => rw [TinyTimeSeries.len, hs] at hl; simp at hl
      | [e] => rw [TinyTimeSeries.len, hs] at hl; simp at hl
      | e1 :: e2 :: rest => exact ⟨e1, e2, rest, rfl⟩
    have hcv : s.get_current_values =
        (e1.system_time, e1.value) :: (e2.system_time, e2.value) ::
          rest.map (fun e => (e.system_time, e.value)) := by
      unfold TinyTimeSeries.get_current_values
      rw [hdata]
      rfl
    rw [hcv]
    exact ⟨_, rfl⟩

/-- C6, witness: the empty and the two-entry cases of the amended statement at
concrete series. -/
theorem C6_witness :
    integrate (TinyTimeSeries.empty : TinyTimeSeries ℚ) = Except.ok none ∧
      integrate (⟨1, [⟨0, 3⟩], some 0, some 0⟩ : TinyTimeSeries ℚ) =
        Except.error () :=
  ⟨(C6_integrate_partiality TinyTimeSeries.empty).1 rfl,
    (C6_integrate_partiality ⟨1, [⟨0, 3⟩], some 0, some 0⟩).2.1 rfl rfl⟩

/-- C7, counterexample: appending a non-empty series onto an empty receiver
succeeds but leaves the receiver's cached start unset while its entries become
non-empty, so the cached bounds no longer equal the minimum and maximum
timestamps present. -/
theorem C7_counterexample :
    TinyTimeSeries.append (TinyTimeSeries.empty : TinyTimeSeries Int)
        ⟨1, [⟨5, 3⟩], some 5, some 5⟩ =
      some ⟨1, [⟨5, 3⟩], none, some 5⟩ ∧
      ¬ WF (⟨1, [⟨5, 3⟩], none, some 5⟩ : TinyTimeSeries Int) := by
  constructor
  · rfl
  · decide

/-- C7 (amended): the cache invariant (cached start and end are the minimum
and maximum timestamp present, both unset exactly when the series is empty) is
preserved by every insert, by range extraction on an ordered series, by append
onto a non-empty receiver, and by the serialization round trip — but not by
append onto an empty receiver, which leaves the cached start unset (see the
counterexample). -/
theorem C7_cache_invariant_preservation {α : Type} :
    (∀ (s : TinyTimeSeries α) (t : Nat) (v : α),
        WF s → WF (s.insert_value_at_time t v)) ∧
      (∀ (s r : TinyTimeSeries α) (st en : Nat), SortedByTime s →
        s.get_values_in_range st en = some r → WF r) ∧
      (∀ (s t r : TinyTimeSeries α), WF s → WF t → s.data ≠ [] →
        TinyTimeSeries.append s t = some r → WF r) ∧
      (∀ (zenc : Int → List Nat → List Nat) (zdec : List Nat → Option (List Nat))
          (encA : α → Nat) (decA : Nat → Option α) (level : Int) (s : TinyTimeSeries α),
        (∀ lvl b, zdec (zenc lvl b) = some b) → (∀ a, decA (encA a) = some a) →
        WF s →
        ∃ r, from_compressed_json zdec decA (to_compressed_json zenc encA s level) =
            some r ∧ WF r) := by
  refine ⟨?_, ?_, ?_, ?_⟩
  · intro s t v hw
    exact insert_entry_WF s _ hw
  · intro s r st en hsort h
    exact (gvir_some_sorted_WF hsort h).2
  · intro s t r hws hwt hne h
    exact append_WF s t r hws hwt hne h
  · intro zenc zdec encA decA level s hz hA hw
    exact ⟨s, compressed_json_roundtrip zenc zdec encA decA hz hA s level, hw⟩

/-- C7, witness: the append part of the amended statement applied to the
non-empty receiver at timestamp 3 and the argument at timestamp 5. -/
theorem C7_witness :
    WF (⟨2, [⟨3, (0 : Int)⟩, ⟨5, 1⟩], some 3, some 5⟩ : TinyTimeSeries Int) :=
  (@C7_cache_invariant_preservation Int).2.2.1 ⟨1, [⟨3, 0⟩], some 3, some 3⟩
    ⟨1, [⟨5, 1⟩], some 5, some 5⟩ ⟨2, [⟨3, 0⟩, ⟨5, 1⟩], some 3, some 5⟩
    (by decide) (by decide) (by decide) rfl

/-- C8 (confirmed): for every series, compression level, lossless sample codec
and stream codec satisfying the zstd contract (decoding inverts encoding at
every level), decoding the encoded bytes reproduces the original structure
exactly — entries, cached start and cached end all equal, sample values
preserved bit for bit by the lossless sample encoding. -/
theorem C8_roundtrip {α : Type} (zenc : Int → List Nat → List Nat)
    (zdec : List Nat → Option (List Nat)) (encA : α → Nat) (decA : Nat → Option α)
    (hz : ∀ lvl b, zdec (zenc lvl b) = some b) (hA : ∀ a, decA (encA a) = some a)
    (s : TinyTimeSeries α) (level : Int) (hne : s.data ≠ []) :
    from_compressed_json zdec decA (to_compressed_json zenc encA s level) = some s :=
  compressed_json_roundtrip zenc zdec encA decA hz hA s level

/-- C8, witness: the round trip at the identity stream codec and identity
sample codec on a concrete non-empty two-entry series. -/
theorem C8_witness :
    from_compressed_json (fun b => some b) (fun n => some n)
        (to_compressed_json (fun _ b => b) (fun v : Nat => v)
          ⟨2, [⟨1, 5⟩, ⟨4, 7⟩], some 1, some 4⟩ 3) =
      some (⟨2, [⟨1, 5⟩, ⟨4, 7⟩], some 1, some 4⟩ : TinyTimeSeries Nat) :=
  C8_roundtrip (fun _ b => b) (fun b => some b) (fun v => v) (fun n => some n)
    (fun _ _ => rfl) (fun _ => rfl) ⟨2, [⟨1, 5⟩, ⟨4, 7⟩], some 1, some 4⟩ 3
    (by decide)

/-- C9 (confirmed): on the five-entry series at timestamps 0, 10, 20, 30, 40
with sample values 0, 1, 2, 3, 4, integrate returns exactly 80, the value of
the composite trapezoidal rule over the consecutive entries. -/
theorem C9_integrate_linear_ramp :
    integrate ((((((TinyTimeSeries.new 5).insert_value_at_time 0
          (0 : ℚ)).insert_value_at_time 10 1).insert_value_at_time 20
          2).insert_value_at_time 30 3).insert_value_at_time 40 4) =
        Except.ok (some 80) ∧
      (80 : ℚ) =
        0.5 * ((0 + 1) * 10 + (1 + 2) * 10 + (2 + 3) * 10 + (3 + 4) * 10) := by
  constructor
  · have hs : ((((((TinyTimeSeries.new 5).insert_value_at_time 0
          (0 : ℚ)).insert_value_at_time 10 1).insert_value_at_time 20
          2).insert_value_at_time 30 3).insert_value_at_time 40 4) =
        (⟨5, [⟨0, 0⟩, ⟨10, 1⟩, ⟨20, 2⟩, ⟨30, 3⟩, ⟨40, 4⟩], some 0, some 40⟩ :
          TinyTimeSeries ℚ) := by
      rfl
    rw [hs]
    unfold integrate
    rw [if_neg (by decide)]
    have hcv : (⟨5, [⟨0, 0⟩, ⟨10, 1⟩, ⟨20, 2⟩, ⟨30, 3⟩, ⟨40, 4⟩], some 0, some 40⟩ :
        TinyTimeSeries ℚ).get_current_values =
        [(0, 0), (10, 1), (20, 2), (30, 3), (40, 4)] := rfl
    have hlen : (⟨5, [⟨0, 0⟩, ⟨10, 1⟩, ⟨20, 2⟩, ⟨30, 3⟩, ⟨40, 4⟩], some 0, some 40⟩ :
        TinyTimeSeries ℚ).len = 5 := rfl
    rw [hcv, hlen]
    dsimp only [List.get?]
    have hr : List.range' 1 (5 - 2) = [1, 2, 3] := rfl
    rw [hr]
    simp only [List.foldl_cons, List.foldl_nil, integrateStep, List.get?]
    simp only [Except.ok.injEq, Option.some.injEq]
    norm_num [u64_wrapping_sub]
    have ht : (Int.toNat 10) = 10 := rfl
    rw [ht]
    norm_num
  · norm_num

/-- C10 (confirmed): lossy_persist never modifies the buffer: the store state
is returned unchanged in both branches, a segment file is written exactly when
the buffer length strictly exceeds the loss threshold, and the file written
carries the buffer's cached bounds as its name and the still-unchanged buffer
as its content (so those entries remain in memory after the call). -/
theorem C10_lossy_persist_frame {α : Type} (db : SunnyDB α) (st en : Nat)
    (h1 : db.time_series.start_time = some st)
    (h2 : db.time_series.end_time = some en) :
    SunnyDB.lossy_persist db =
      Except.ok (db,
        if db.data_loss_threshold < db.time_series.len
        then some ((st, en), db.time_series) else none) := by
  unfold SunnyDB.lossy_persist SunnyDB.export_time_series_to_file
    TinyTimeSeries.get_start_time TinyTimeSeries.get_end_time
  rw [h1, h2]
  split_ifs with hc
  · rfl
  · rfl

/-- C10, witness: the frame property applied to a store whose one-entry buffer
exceeds the loss threshold 0, so a file is written and the buffer kept. -/
theorem C10_witness :
    SunnyDB.lossy_persist
        (⟨⟨1, [⟨5, (3 : Int)⟩], some 5, some 5⟩, 10, 2, 0, []⟩ : SunnyDB Int) =
      Except.ok ((⟨⟨1, [⟨5, (3 : Int)⟩], some 5, some 5⟩, 10, 2, 0, []⟩ : SunnyDB Int),
        some ((5, 5), ⟨1, [⟨5, (3 : Int)⟩], some 5, some 5⟩)) := by
  have h := C10_lossy_persist_frame
    (⟨⟨1, [⟨5, (3 : Int)⟩], some 5, some 5⟩, 10, 2, 0, []⟩ : SunnyDB Int) 5 5 rfl rfl
  simpa using h

end Sunny
